import Mathlib

/-!
# Verification of the code2text bundling pipeline

Shallow embedding of the repository's core pipeline (src/bundler_logic.py)
and of the standalone CLI variant (src/code2text.py):

* module resolution (`ImportAnalyzer._resolve_module`),
* dependency-graph construction (`build_dependency_graph`),
* cycle-tolerant topological sorting (`topological_sort`),
* bundle writing (`create_combined_file`),
* orchestration (`run_bundling_process`).

Absolute file-system paths are modelled as lists of components
(`[] = the filesystem root /`).  File-system facts and the Python runtime's
module search (`importlib.util.find_spec`) are oracles packaged in `World`.
-/

/-- An absolute path, as its list of components below the filesystem root.
`[]` is the filesystem root `/` itself. -/
abbrev Fpath := List String

/-- `Path.parent` of pathlib: drop the last component; the parent of the
filesystem root is the root itself (`Path('/').parent == Path('/')`). -/
def parentDir (p : Fpath) : Fpath := p.dropLast

/-- `p.is_relative_to root` of pathlib for absolute paths: the components of
`root` are a prefix of the components of `p`. -/
def isRelTo (p root : Fpath) : Bool := root.isPrefixOf p

/-- Result of `importlib.util.find_spec(module_name)` as observed by
`_resolve_module` (src/bundler_logic.py lines 60-78):
the module may be missing (`find_spec` returns `None` or raises
`ModuleNotFoundError`), the lookup may raise some other exception (both are
passed over), the spec may lack an origin, the origin may be the literal
strings `'built-in'`/`'frozen'`, or it may be a real file path. -/
inductive SpecRes where
  | notFound
  | errored
  | noOrigin
  | builtinFrozen
  | origin (p : Fpath)
deriving DecidableEq

/-- The oracles the resolver consults: file-system predicates and the host
runtime's module search. -/
structure World where
  isFile : Fpath → Bool
  isDir : Fpath → Bool
  findSpec : String → SpecRes

/-- Helper for `pySplit`: split a character list at dots, `acc` holding the
current segment reversed. -/
def pySplitAux : List Char → List Char → List String
  | [], acc => [⟨acc.reverse⟩]
  | c :: rest, acc =>
    if c = '.' then ⟨acc.reverse⟩ :: pySplitAux rest []
    else pySplitAux rest (c :: acc)

/-- Python `module_name.split('.')` (splitting `""` yields `[""]`). -/
def pySplit (s : String) : List String := pySplitAux s.data []

/-- `base / Path(*parts)`: pathlib drops empty (`'.'`) segments when joining. -/
def joinParts (base : Fpath) (parts : List String) : Fpath :=
  base ++ parts.filter (fun c => ¬ (c = ""))

/-- `PurePath.with_suffix('.py')` on a single path name: replace the existing
suffix (the part after the last dot, unless the only dot is a leading one)
with `.py`. -/
def withSuffixPyName (s : String) : String :=
  let cs := pySplit s
  match cs with
  | [] => s ++ ".py"
  | [_] => s ++ ".py"
  | c0 :: rest =>
    if c0 = "" ∧ rest.length = 1 then s ++ ".py"
    else String.intercalate "." cs.dropLast ++ ".py"

/-- `path.with_suffix('.py')`: `none` models the `ValueError` pathlib raises
for a path with an empty name (e.g. `Path('/')`). -/
def withSuffixPy : Fpath → Option Fpath
  | [] => none
  | ps => some (ps.dropLast ++ [withSuffixPyName (ps.getLast! )])

/-- The shared candidate check of `_resolve_module` (lines 104-128): a module
file `pm`, else a package-init file `pkg`, each accepted only when it is a file
lying under the project root. -/
def tryCandidates (w : World) (root pm pkg : Fpath) : Option Fpath :=
  if w.isFile pm ∧ isRelTo pm root then some pm
  else if w.isFile pkg ∧ isRelTo pkg root then some pkg
  else none

/-- Manual resolution part of `ImportAnalyzer._resolve_module`
(src/bundler_logic.py lines 80-130), for an import of `moduleName` at
relative `level` appearing in `filePath`.  `Except.error ()` models a
propagating exception (the `with_suffix` `ValueError`); `Except.ok none`
models `return None` (not a local project file). -/
def resolveManual (w : World) (root filePath : Fpath) (moduleName : String)
    (level : Nat) : Except Unit (Option Fpath) := do
  let base0 := parentDir filePath
  let baseDir := if level > 0 then parentDir^[level - 1] base0 else base0
  let pathToTry : Fpath :=
    if level = 0 ∧ ¬ (moduleName = "") then joinParts root (pySplit moduleName)
    else if level > 0 ∧ ¬ (moduleName = "") then joinParts baseDir (pySplit moduleName)
    else if level > 0 then baseDir
    else joinParts root (pySplit moduleName)
  let pm ← match withSuffixPy pathToTry with
    | none => Except.error ()
    | some q => Except.ok q
  let pkg := pathToTry ++ ["__init__.py"]
  match tryCandidates w root pm pkg with
  | some p => return some p
  | none =>
    let absTry := joinParts root (pySplit moduleName)
    let pm2 ← match withSuffixPy absTry with
      | none => Except.error ()
      | some q => Except.ok q
    let pkg2 := absTry ++ ["__init__.py"]
    return tryCandidates w root pm2 pkg2

/-- `ImportAnalyzer._resolve_module` (src/bundler_logic.py lines 53-130):
first the `find_spec` classification (lines 59-78), then manual resolution. -/
def resolveModule (w : World) (root filePath : Fpath) (moduleName : String)
    (level : Nat) : Except Unit (Option Fpath) :=
  match w.findSpec moduleName with
  | .builtinFrozen => Except.ok none
  | .origin p =>
    if ¬ isRelTo p root then Except.ok none
    else resolveManual w root filePath moduleName level
  | _ => resolveManual w root filePath moduleName level

/-- `tryCandidates` only returns paths under the project root. -/
theorem tryCandidates_relTo {w : World} {root pm pkg p : Fpath}
    (h : tryCandidates w root pm pkg = some p) : isRelTo p root = true := by
  unfold tryCandidates at h
  split at h
  · rename_i hc; cases h; exact hc.2
  · split at h
    · rename_i hc; cases h; exact hc.2
    · cases h

/-- `resolveManual` only resolves to paths under the project root. -/
theorem resolveManual_relTo {w : World} {root filePath : Fpath}
    {moduleName : String} {level : Nat} {p : Fpath}
    (h : resolveManual w root filePath moduleName level = Except.ok (some p)) :
    isRelTo p root = true := by
  unfold resolveManual at h
  simp only [bind, Except.bind] at h
  split at h
  · cases h
  · rename_i q hq
    split at h
    · rename_i hc
      cases h; exact tryCandidates_relTo hc
    · split at h
      · cases h
      · rename_i q2 hq2
        simp only [pure, Except.pure, Except.ok.injEq] at h
        cases hcand : tryCandidates w root q2 (joinParts root (pySplit moduleName) ++ ["__init__.py"]) with
        | none => rw [hcand] at h; cases h
        | some r => rw [hcand] at h; cases h; exact tryCandidates_relTo hcand

/-- `_resolve_module` only resolves to paths under the project root. -/
theorem resolveModule_relTo {w : World} {root filePath : Fpath}
    {moduleName : String} {level : Nat} {p : Fpath}
    (h : resolveModule w root filePath moduleName level = Except.ok (some p)) :
    isRelTo p root = true := by
  unfold resolveModule at h
  split at h
  · cases h
  · split at h
    · cases h
    · exact resolveManual_relTo h
  · exact resolveManual_relTo h

/-! ## Bundle writer (`create_combined_file`, src/bundler_logic.py lines 249-283) -/

/-- Outcome of `open(file_path).read()` for one input file: contents, a
`FileNotFoundError`, or any other exception (with its message). -/
inductive ReadRes where
  | ok (content : String)
  | notFound
  | failed (msg : String)
deriving DecidableEq

/-- Python `content.endswith('\n')`. -/
def pyEndsNl (s : String) : Bool := s.data.getLast? == some '\n'

/-- `str()` of a multi-component relative path: components joined by the OS
separator character. -/
def joinChar (sep : Char) : List String → String
  | [] => ""
  | [c] => c
  | c :: cs => c ++ String.singleton sep ++ joinChar sep cs

/-- Python `s.replace('\\', '/')` (a single-character replacement, hence a
character map). -/
def normalizeSep (s : String) : String :=
  ⟨s.data.map (fun c => if c = '\\' then '/' else c)⟩

/-- `str(file_path.relative_to(project_root)).replace('\\', '/')`
(line 262): the components of `p` below `root`, joined by the OS separator,
with backslashes normalized to forward slashes. -/
def relStr (sep : Char) (p root : Fpath) : String :=
  normalizeSep (joinChar sep (p.drop root.length))

/-- The bytes emitted for one file of the sorted list (lines 260-276).  The
opening delimiter is written before the input file is opened, so on a read
failure the output holds the start line followed by an inline error block. -/
def fileBlock (sep : Char) (root : Fpath) (readF : Fpath → ReadRes)
    (p : Fpath) : String :=
  let rel := relStr sep p root
  "```\n# Start of " ++ rel ++ "\n" ++
  (match readF p with
   | .ok content =>
     content ++ (if pyEndsNl content then "" else "\n") ++
     "# End of " ++ rel ++ "\n```\n\n"
   | .notFound => "```\n# Error: File not found: " ++ rel ++ "\n```\n\n"
   | .failed msg => "```\n# Error reading file: " ++ rel ++ " (" ++ msg ++ ")\n```\n\n")

/-- Sequential writes to the output file: plain concatenation. -/
def concatAll : List String → String
  | [] => ""
  | s :: rest => s ++ concatAll rest

/-- The whole combined file: the concatenation of the per-file blocks in
sorted order. -/
def bundleOutput (sep : Char) (root : Fpath) (readF : Fpath → ReadRes)
    (files : List Fpath) : String :=
  concatAll (files.map (fileBlock sep root readF))

/-! ## Orchestrator (`run_bundling_process`, src/bundler_logic.py lines 288-366)

The phases interact with the file system and the caller's progress sink, so
any of them can raise; each phase is modelled as an `Except`-valued oracle.
The control flow below mirrors the source exactly: the entry-file check
(lines 298-300) precedes everything, `find_project_root` (line 303) is called
*outside* every `try` block, and the three `try`/`except` blocks around
graph-building (315-325), sorting (328-354) and writing (357-363) turn
exceptions into a `False` return. -/

structure RunEnv where
  entryIsFile : Bool
  entry : Fpath
  rootLoc : Except String (Option Fpath)
  buildPhase : Fpath → Except String (List (Fpath × List Fpath))
  sortPhase : List (Fpath × List Fpath) → Except String (List Fpath)
  writePhase : List Fpath → Except String Unit

/-- `run_bundling_process`, instrumented: besides the Python return value
(`Except.error` = an uncaught exception propagating to the caller), it records
whether graph work started and whether the writer was invoked (the output file
is created only inside `create_combined_file`). -/
def runProcessTr (env : RunEnv) : Except String Bool × Bool × Bool :=
  if ¬ env.entryIsFile then (Except.ok false, false, false)
  else
    match env.rootLoc with
    | .error e => (Except.error e, false, false)
    | .ok rootOpt =>
      let root := rootOpt.getD (parentDir env.entry)
      match env.buildPhase root with
      | .error _ => (Except.ok false, true, false)
      | .ok g =>
        match env.sortPhase g with
        | .error _ => (Except.ok false, true, false)
        | .ok order =>
          match env.writePhase order with
          | .error _ => (Except.ok false, true, true)
          | .ok _ => (Except.ok true, true, true)

/-- The value `run_bundling_process` hands its caller. -/
def runProcess (env : RunEnv) : Except String Bool := (runProcessTr env).1

/-! ## The standalone CLI variant (src/code2text.py)

`ImportAnalyzer` there filters via `sys.builtin_module_names`, drops
`from . import x` and over-deep relative imports, and stores dotted strings;
`resolve_module_path` plus the `exists()`/`startswith` filter of
`analyze_imports` then decides locality. -/

/-- `exists()` of pathlib: a file or a directory. -/
def wExists (w : World) (p : Fpath) : Bool := w.isFile p || w.isDir p

/-- Python `s.startswith(pre)`. -/
def strStartsWith (s pre : String) : Bool := pre.data.isPrefixOf s.data

/-- `str()` of an absolute path. -/
def strOfPath (p : Fpath) : String := "/" ++ joinChar '/' p

/-- `_is_stdlib_module` (src/code2text.py lines 61-65):
`module_name.split('.')[0] in sys.builtin_module_names`. -/
def cliIsStdlib (builtins : List String) (m : String) : Bool :=
  ((pySplit m).headD "") ∈ builtins

/-- Path segments of `f"{name.replace('.', '/')}.py"`. -/
def dotsToSegments (name : String) : List String :=
  let cs := pySplit name
  cs.dropLast ++ [cs.getLast! ++ ".py"]

/-- The dotted string `visit_Import` / `visit_ImportFrom`
(src/code2text.py lines 27-59) records for a specifier, or `none` when the
specifier is dropped (stdlib, `from . import x`, or a relative level
exceeding `len(self.base_path.parts)`; `parts` of an absolute path includes
the root anchor, hence the `+ 1`). -/
def cliVisitSpec (builtins : List String) (baseDir : Fpath)
    (m : Option String) (level : Nat) : Option String :=
  match m, level with
  | none, _ => none
  | some name, 0 => if cliIsStdlib builtins name then none else some name
  | some name, (l+1) =>
    if l + 1 > baseDir.length + 1 then none
    else some (String.mk (List.replicate (l+1) '.') ++ name)

/-- `resolve_module_path` (src/code2text.py lines 75-106). -/
def cliResolveModulePath (w : World) (root curFile : Fpath) (s : String) : Fpath :=
  if strStartsWith s "." then
    let level := (s.data.takeWhile (fun c => c = '.')).length
    let name : String := ⟨s.data.drop level⟩
    let parent := parentDir^[level - 1] (parentDir curFile)
    if ¬ (name = "") then parent ++ dotsToSegments name
    else parent ++ ["__init__.py"]
  else
    let modulePath := root ++ dotsToSegments s
    let packagePath := root ++ (pySplit s).filter (fun c => ¬ (c = ""))
    if w.isDir packagePath ∧ wExists w (packagePath ++ ["__init__.py"]) then
      packagePath ++ ["__init__.py"]
    else modulePath

/-- End-to-end locality classification of one specifier by the CLI variant:
the analyzer's filter, then `resolve_module_path`, then the
`exists()`/`startswith(project_root)` check of `analyze_imports`
(src/code2text.py lines 119-129). -/
def cliClassify (w : World) (builtins : List String) (root curFile : Fpath)
    (m : Option String) (level : Nat) : Option Fpath :=
  match cliVisitSpec builtins (parentDir curFile) m level with
  | none => none
  | some s =>
    let p := cliResolveModulePath w root curFile s
    if wExists w p ∧ strStartsWith (strOfPath p) (strOfPath root) then some p
    else none

/-- End-to-end locality classification of one specifier by the embeddable
core variant (`ImportAnalyzer` of src/bundler_logic.py): `visit_Import`
passes `(name, 0)`, `visit_ImportFrom` passes `(module or '', level)`, and a
resolved path is recorded as a dependency. -/
def coreClassify (w : World) (root curFile : Fpath)
    (m : Option String) (level : Nat) : Option Fpath :=
  match resolveModule w root curFile (m.getD "") level with
  | .ok (some p) => some p
  | _ => none

/-! ## Dependency graph (`build_dependency_graph`, src/bundler_logic.py lines 173-206)

The graph dict (insertion-ordered in Python) is an association list; the
iteration order a run observes on each `Set[Path]` of dependencies is the
order of the corresponding `List Fpath`.  `imports f` stands for
`ImportAnalyzer.find_imports(f, project_root)` and `inRoot f` for
`f.is_relative_to(project_root)`. -/

abbrev GraphAL := List (Fpath × List Fpath)

/-- Keys of the graph dict, in insertion order. -/
def graphKeys (g : GraphAL) : List Fpath := g.map (fun kv => kv.1)

/-- `graph.get(node, set())` (src/bundler_logic.py lines 225 and 233). -/
def nbrs (g : GraphAL) (u : Fpath) : List Fpath :=
  match g.find? (fun (kv : Fpath × List Fpath) => decide (kv.1 = u)) with
  | some kv => kv.2
  | none => []

/-- Every node mentioned by the graph: keys and members of dependency sets. -/
def allNodes (g : GraphAL) : List Fpath :=
  (graphKeys g ++ g.foldr (fun (kv : Fpath × List Fpath) acc => kv.2 ++ acc) []).dedup

/-- State of the `while queue:` loop of `build_dependency_graph`. -/
structure BuildSt where
  queue : List Fpath
  visited : List Fpath
  graph : GraphAL
  allFiles : List Fpath

/-- One iteration of the loop (lines 187-203): pop, skip if visited or
outside the project root, else record the file with its dependency set and
enqueue the unvisited dependencies. -/
def buildStep (imports : Fpath → List Fpath) (inRoot : Fpath → Bool)
    (s : BuildSt) : BuildSt :=
  match s.queue with
  | [] => s
  | f :: rest =>
    if f ∈ s.visited then { s with queue := rest }
    else if ¬ inRoot f = true then { s with queue := rest }
    else
      let deps := imports f
      { queue := rest ++ deps.filter (fun d => ¬ (d ∈ s.visited ∨ d = f)),
        visited := s.visited ++ [f],
        graph := s.graph ++ [(f, deps)],
        allFiles := s.allFiles ++ [f] }

/-- The loop, fuel-indexed; the Python loop runs until the queue is empty,
which is the hypothesis `(buildRun …).queue = []` below. -/
def buildRun (imports : Fpath → List Fpath) (inRoot : Fpath → Bool) :
    Nat → BuildSt → BuildSt
  | 0, s => s
  | n + 1, s =>
    match s.queue with
    | [] => s
    | _ :: _ => buildRun imports inRoot n (buildStep imports inRoot s)

/-- `build_dependency_graph(main_file_path, project_root)`. -/
def buildGraph (imports : Fpath → List Fpath) (inRoot : Fpath → Bool)
    (entry : Fpath) (fuel : Nat) : BuildSt :=
  buildRun imports inRoot fuel ⟨[entry], [], [], []⟩

/-- Reachability along recorded dependency edges. -/
inductive Reaches (g : GraphAL) : Fpath → Fpath → Prop
  | refl (a : Fpath) : Reaches g a a
  | step {a u d : Fpath} {ds : List Fpath} :
      Reaches g a u → (u, ds) ∈ g → d ∈ ds → Reaches g a d

theorem Reaches.mono {g h : GraphAL} {a b : Fpath} (hr : Reaches g a b) :
    Reaches (g ++ h) a b := by
  induction hr with
  | refl => exact .refl _
  | step _ hmem hd ih => exact .step ih (List.mem_append_left _ hmem) hd

/-- The invariant of the builder loop, for an entry file inside the project
root and an import analyzer that only reports in-root dependencies (which
`resolveModule_relTo` establishes for the real analyzer). -/
structure BuildInv (imports : Fpath → List Fpath) (inRoot : Fpath → Bool)
    (entry : Fpath) (s : BuildSt) : Prop where
  visited_eq : s.visited = graphKeys s.graph
  files_eq : s.allFiles = graphKeys s.graph
  keys_nodup : (graphKeys s.graph).Nodup
  keys_root : ∀ k ∈ graphKeys s.graph, inRoot k = true
  vals_imports : ∀ kv ∈ s.graph, kv.2 = imports kv.1
  vals_covered : ∀ d, (∃ kv ∈ s.graph, d ∈ kv.2) → d ∈ s.visited ∨ d ∈ s.queue
  head_entry : (s.graph = [] ∧ s.queue.head? = some entry) ∨
    (graphKeys s.graph).head? = some entry
  entry_somewhere : entry ∈ s.visited ∨ entry ∈ s.queue
  reach : ∀ x, x ∈ s.visited ∨ x ∈ s.queue → Reaches s.graph entry x

theorem buildStep_inv {imports : Fpath → List Fpath} {inRoot : Fpath → Bool}
    {entry : Fpath} {s : BuildSt}
    (hentry : inRoot entry = true)
    (himp : ∀ x d, d ∈ imports x → inRoot d = true)
    (hinv : BuildInv imports inRoot entry s) :
    BuildInv imports inRoot entry (buildStep imports inRoot s) := by
  obtain ⟨h1, h2, h3, h4, h5, h6, h7, h8, h9⟩ := hinv
  unfold buildStep
  cases hq : s.queue with
  | nil => exact ⟨h1, h2, h3, h4, h5, by rw [hq] at h6 ⊢; exact h6, by rw [hq] at h7 ⊢; exact h7, by rw [hq] at h8 ⊢; exact h8, by rw [hq] at h9 ⊢; exact h9⟩
  | cons f rest =>
    by_cases hv : f ∈ s.visited
    · simp only [hv, if_pos]
      refine ⟨h1, h2, h3, h4, h5, ?_, ?_, ?_, ?_⟩
      · intro d hd
        rcases h6 d hd with h | h
        · exact Or.inl h
        · rw [hq] at h
          rcases List.mem_cons.mp h with rfl | h
          · exact Or.inl hv
          · exact Or.inr h
      · rcases h7 with ⟨hg, hh⟩ | hh
        · -- graph empty means visited empty, contradicting f ∈ visited
          rw [h1, hg] at hv; simp [graphKeys] at hv
        · exact Or.inr hh
      · rcases h8 with h | h
        · exact Or.inl h
        · rw [hq] at h
          rcases List.mem_cons.mp h with rfl | h
          · exact Or.inl hv
          · exact Or.inr h
      · intro x hx
        refine h9 x ?_
        rcases hx with h | h
        · exact Or.inl h
        · exact Or.inr (by rw [hq]; exact List.mem_cons_of_mem _ h)
    · simp only [hv, if_neg, not_false_iff]
      by_cases hr : inRoot f = true
      · simp only [hr, not_true, if_neg, not_false_iff, if_pos]
        have hkeys : graphKeys (s.graph ++ [(f, imports f)]) = graphKeys s.graph ++ [f] := by
          simp [graphKeys]
        have hfkey : f ∉ graphKeys s.graph := by rw [← h1]; exact hv
        refine ⟨?_, ?_, ?_, ?_, ?_, ?_, ?_, ?_, ?_⟩
        · rw [hkeys, h1]
        · rw [hkeys, h2]
        · rw [hkeys]
          exact List.Nodup.append h3 (List.nodup_singleton f)
            (by intro a ha hb; rcases List.mem_singleton.mp hb with rfl; exact hfkey ha)
        · intro k hk
          rw [hkeys] at hk
          rcases List.mem_append.mp hk with h | h
          · exact h4 k h
          · rcases List.mem_singleton.mp h with rfl; exact hr
        · intro kv hkv
          rcases List.mem_append.mp hkv with h | h
          · exact h5 kv h
          · rcases List.mem_singleton.mp h with rfl; rfl
        · intro d hd
          rcases hd with ⟨kv, hkv, hdkv⟩
          rcases List.mem_append.mp hkv with hold | hnew
          · rcases h6 d ⟨kv, hold, hdkv⟩ with h | h
            · exact Or.inl (List.mem_append_left _ h)
            · rw [hq] at h
              rcases List.mem_cons.mp h with rfl | h
              · exact Or.inl (List.mem_append_right _ (List.mem_singleton.mpr rfl))
              · exact Or.inr (List.mem_append_left _ h)
          · rcases List.mem_singleton.mp hnew with rfl
            simp only at hdkv
            by_cases hdv : d ∈ s.visited ∨ d = f
            · rcases hdv with h | rfl
              · exact Or.inl (List.mem_append_left _ h)
              · exact Or.inl (List.mem_append_right _ (List.mem_singleton.mpr rfl))
            · refine Or.inr (List.mem_append_right _ ?_)
              exact List.mem_filter.mpr ⟨hdkv, by simpa using hdv⟩
        · rcases h7 with ⟨hg, hh⟩ | hh
          · rw [hq] at hh
            simp only [List.head?] at hh
            cases hh
            right
            rw [hkeys, hg]
            simp [graphKeys]
          · right
            rw [hkeys]
            rcases hgk : graphKeys s.graph with _ | ⟨k0, ks⟩
            · rw [hgk] at hh; cases hh
            · rw [hgk] at hh; simpa using hh
        · rcases h8 with h | h
          · exact Or.inl (List.mem_append_left _ h)
          · rw [hq] at h
            rcases List.mem_cons.mp h with rfl | h
            · exact Or.inl (List.mem_append_right _ (List.mem_singleton.mpr rfl))
            · exact Or.inr (List.mem_append_left _ h)
        · intro x hx
          have hreachf : Reaches (s.graph ++ [(f, imports f)]) entry f :=
            (h9 f (Or.inr (by rw [hq]; exact List.mem_cons_self f rest))).mono
          rcases hx with h | h
          · rcases List.mem_append.mp h with h | h
            · exact (h9 x (Or.inl h)).mono
            · rcases List.mem_singleton.mp h with rfl; exact hreachf
          · rcases List.mem_append.mp h with h | h
            · exact (h9 x (Or.inr (by rw [hq]; exact List.mem_cons_of_mem _ h))).mono
            · have hx2 := List.mem_filter.mp h
              exact .step hreachf (List.mem_append_right _ (List.mem_singleton.mpr rfl)) hx2.1
      · simp only [hr, if_pos, not_false_iff]
        -- f is outside the project root: it is dropped; it cannot be the
        -- entry, and (imports being in-root) it cannot be a recorded value.
        have hfe : ¬ f = entry := fun h => hr (h ▸ hentry)
        refine ⟨h1, h2, h3, h4, h5, ?_, ?_, ?_, ?_⟩
        · intro d hd
          rcases h6 d hd with h | h
          · exact Or.inl h
          · rw [hq] at h
            rcases List.mem_cons.mp h with rfl | h
            · exfalso
              rcases hd with ⟨kv, hkv, hdkv⟩
              have hval := h5 kv hkv
              exact hr (himp kv.1 d (hval ▸ hdkv))
            · exact Or.inr h
        · rcases h7 with ⟨hg, hh⟩ | hh
          · rw [hq] at hh
            simp only [List.head?] at hh
            cases hh
            exact absurd hentry hr
          · exact Or.inr hh
        · rcases h8 with h | h
          · exact Or.inl h
          · rw [hq] at h
            rcases List.mem_cons.mp h with h | h
            · exact absurd h.symm hfe
            · exact Or.inr h
        · intro x hx
          refine h9 x ?_
          rcases hx with h | h
          · exact Or.inl h
          · exact Or.inr (by rw [hq]; exact List.mem_cons_of_mem _ h)

theorem buildRun_inv {imports : Fpath → List Fpath} {inRoot : Fpath → Bool}
    {entry : Fpath} (hentry : inRoot entry = true)
    (himp : ∀ x d, d ∈ imports x → inRoot d = true) :
    ∀ (fuel : Nat) (s : BuildSt), BuildInv imports inRoot entry s →
      BuildInv imports inRoot entry (buildRun imports inRoot fuel s) := by
  intro fuel
  induction fuel with
  | zero => intro s h; exact h
  | succ n ih =>
    intro s h
    unfold buildRun
    cases hq : s.queue with
    | nil => exact h
    | cons f rest => exact ih _ (buildStep_inv hentry himp h)

theorem buildInit_inv {imports : Fpath → List Fpath} {inRoot : Fpath → Bool}
    {entry : Fpath} :
    BuildInv imports inRoot entry ⟨[entry], [], [], []⟩ := by
  refine ⟨rfl, rfl, List.nodup_nil, ?_, ?_, ?_, ?_, ?_, ?_⟩
  · intro k hk; simp [graphKeys] at hk
  · intro kv hkv; simp at hkv
  · intro d hd; rcases hd with ⟨kv, hkv, _⟩; simp at hkv
  · exact Or.inl ⟨rfl, rfl⟩
  · exact Or.inr (List.mem_singleton.mpr rfl)
  · intro x hx
    rcases hx with h | h
    · simp at h
    · rcases List.mem_singleton.mp h with rfl; exact .refl _

/-- The facts about a completed `build_dependency_graph` run that the
ordering theorems need: the entry file is the first key, keys are unique and
reachable from the entry, and every dependency recorded as a value is itself
a key. -/
theorem buildGraph_completed {imports : Fpath → List Fpath}
    {inRoot : Fpath → Bool} {entry : Fpath} {fuel : Nat}
    (hentry : inRoot entry = true)
    (himp : ∀ x d, d ∈ imports x → inRoot d = true)
    (hdone : (buildGraph imports inRoot entry fuel).queue = []) :
    let g := (buildGraph imports inRoot entry fuel).graph
    (graphKeys g).head? = some entry ∧ (graphKeys g).Nodup ∧
    (∀ k ∈ graphKeys g, Reaches g entry k) ∧
    (∀ kv ∈ g, ∀ d ∈ kv.2, d ∈ graphKeys g) ∧
    entry ∈ graphKeys g := by
  intro g
  have hinv := buildRun_inv hentry himp fuel _
    (@buildInit_inv imports inRoot entry)
  rw [show buildRun imports inRoot fuel ⟨[entry], [], [], []⟩ =
    buildGraph imports inRoot entry fuel from rfl] at hinv
  obtain ⟨h1, h2, h3, h4, h5, h6, h7, h8, h9⟩ := hinv
  have hhead : (graphKeys g).head? = some entry := by
    rcases h7 with ⟨_, hh⟩ | hh
    · rw [hdone] at hh; cases hh
    · exact hh
  refine ⟨hhead, h3, ?_, ?_, ?_⟩
  · intro k hk
    exact h9 k (Or.inl (by rw [h1]; exact hk))
  · intro kv hkv d hd
    rcases h6 d ⟨kv, hkv, hd⟩ with h | h
    · rw [← h1]; exact h
    · rw [hdone] at h; cases h
  · rcases h8 with h | h
    · rw [← h1]; exact h
    · rw [hdone] at h; cases h

/-! ## Topological sort (`topological_sort`, src/bundler_logic.py lines 209-244)

The recursive `visit` is embedded with a fuel argument; the `stuck` flag is
instrumentation recording whether the fuel (i.e. a recursion depth of
`|nodes| + 1`) was ever insufficient — the theorems prove it never is, which
is the embedded form of "the recursion is bounded and terminates". -/

structure Dfs where
  result : List Fpath
  visited : List Fpath
  temp : List Fpath
  cycles : List (Fpath × Fpath)
  stuck : Bool

/-- The inner `visit(node)` of `topological_sort` (lines 220-238).  On a
node already in `temp_visited`, a cycle edge `(t, node)` is recorded for
every in-progress `t` whose dependency set contains `node`; on an unvisited
node, the neighbors are visited recursively and the node is appended to the
result afterwards. -/
def visit (g : GraphAL) : Nat → Fpath → Dfs → Dfs
  | 0, _, s => { s with stuck := true }
  | fuel + 1, node, s =>
    if node ∈ s.temp then
      { s with cycles := s.cycles ++
          (s.temp.filter (fun t => node ∈ nbrs g t)).map (fun t => (t, node)) }
    else if node ∈ s.visited then s
    else
      let s1 : Dfs := { s with temp := s.temp ++ [node] }
      let s2 := (nbrs g node).foldl (fun st nb => visit g fuel nb st) s1
      { s2 with temp := s2.temp.erase node,
                visited := s2.visited ++ [node],
                result := s2.result ++ [node] }

/-- `topological_sort(graph)` (lines 240-243): visit every key of the graph
dict in insertion order. -/
def topoSort (g : GraphAL) : Dfs :=
  (graphKeys g).foldl
    (fun st k => if k ∈ st.visited then st else visit g ((allNodes g).length + 1) k st)
    ⟨[], [], [], [], false⟩

/-- The final bundle order (src/bundler_logic.py lines 340-343): remove the
entry file from the sorted list if present, then append it at the end. -/
def finalOrder (g : GraphAL) (entry : Fpath) : List Fpath :=
  let res := (topoSort g).result
  (if entry ∈ res then res.erase entry else res) ++ [entry]

theorem graphKeys_subset_allNodes {g : GraphAL} {k : Fpath}
    (h : k ∈ graphKeys g) : k ∈ allNodes g := by
  unfold allNodes
  exact List.mem_dedup.mpr (List.mem_append_left _ h)

theorem nbrs_key {g : GraphAL} {u v : Fpath} (h : v ∈ nbrs g u) :
    u ∈ graphKeys g := by
  unfold nbrs at h
  cases hf : g.find? (fun (kv : Fpath × List Fpath) => decide (kv.1 = u)) with
  | none => rw [hf] at h; cases h
  | some kv =>
    have hp := List.find?_some hf
    have hmem := List.mem_of_find?_eq_some hf
    have : kv.1 = u := of_decide_eq_true hp
    exact this ▸ List.mem_map_of_mem (fun kv => kv.1) hmem

theorem nbrs_mem_allNodes {g : GraphAL} {u v : Fpath} (h : v ∈ nbrs g u) :
    v ∈ allNodes g := by
  unfold nbrs at h
  cases hf : g.find? (fun (kv : Fpath × List Fpath) => decide (kv.1 = u)) with
  | none => rw [hf] at h; cases h
  | some kv =>
    rw [hf] at h
    have hmem := List.mem_of_find?_eq_some hf
    unfold allNodes
    refine List.mem_dedup.mpr (List.mem_append_right _ ?_)
    clear hf
    induction g with
    | nil => cases hmem
    | cons kv0 g ih =>
      rcases List.mem_cons.mp hmem with rfl | hmem2
      · exact List.mem_append_left _ h
      · exact List.mem_append_right _ (ih hmem2)

theorem nbrs_eq_of_mem {g : GraphAL} {u : Fpath} {ds : List Fpath}
    (hnd : (graphKeys g).Nodup) (h : (u, ds) ∈ g) : nbrs g u = ds := by
  induction g with
  | nil => cases h
  | cons kv0 g ih =>
    rcases List.mem_cons.mp h with rfl | hmem
    · unfold nbrs
      rw [List.find?_cons_of_pos _ (by simp)]
    · have hu : u ∈ graphKeys g := List.mem_map_of_mem (fun kv => kv.1) hmem
      have hnd2 : (kv0.1 :: graphKeys g).Nodup := by
        simpa only [graphKeys, List.map_cons] using hnd
      have hne : ¬ kv0.1 = u := by
        intro he
        exact (List.nodup_cons.mp hnd2).1 (he ▸ hu)
      unfold nbrs
      rw [List.find?_cons_of_neg _ (by simpa using hne)]
      exact ih (List.nodup_cons.mp hnd2).2 hmem

/-- The per-state invariant of the DFS:  `visited` and `result` hold the same
nodes, the result has no duplicates, no in-progress node is finished, the
result stays inside the graph's nodes, and (the ordering guarantee) every
finished node's dependencies are either reported as cycle edges or placed
earlier in the result. -/
def DfsInv (g : GraphAL) (s : Dfs) : Prop :=
  (∀ x, x ∈ s.visited ↔ x ∈ s.result) ∧
  s.result.Nodup ∧
  (∀ x ∈ s.temp, x ∉ s.result) ∧
  (∀ x ∈ s.result, x ∈ allNodes g) ∧
  (∀ u ∈ s.result, ∀ v ∈ nbrs g u, (u, v) ∈ s.cycles ∨ [v, u].Sublist s.result)

/-- Central invariant lemma for `visit`.  With fuel exceeding the number of
never-visited nodes, one call: preserves `temp`, never exhausts the fuel,
only appends to `cycles`, maintains `DfsInv`, appends only new nodes to the
result — each outside the caller's in-progress set, with every dependency
pointing back into the in-progress set (or at the visited node) reported as a
cycle edge, and every dependency either finished or in the caller's
in-progress set — and finishes `node` itself unless it was in progress, in
which case the back edges into it are reported. -/
theorem visit_main (g : GraphAL) : ∀ (fuel : Nat) (node : Fpath) (s : Dfs),
    (allNodes g).length < fuel + s.temp.length →
    s.temp.Nodup →
    (∀ x ∈ s.temp, x ∈ allNodes g) →
    node ∈ allNodes g →
    DfsInv g s →
    (visit g fuel node s).temp = s.temp ∧
    (visit g fuel node s).stuck = s.stuck ∧
    (∀ e ∈ s.cycles, e ∈ (visit g fuel node s).cycles) ∧
    DfsInv g (visit g fuel node s) ∧
    (∃ r, (visit g fuel node s).result = s.result ++ r ∧
      ∀ x ∈ r, x ∉ s.temp ∧ x ∈ allNodes g ∧
        (∀ v ∈ nbrs g x, (v ∈ s.temp ∨ v = node) → (x, v) ∈ (visit g fuel node s).cycles) ∧
        (∀ v ∈ nbrs g x, v ∈ (visit g fuel node s).result ∨ v ∈ s.temp)) ∧
    (node ∈ (visit g fuel node s).result ∨
      (node ∈ s.temp ∧ ∀ t ∈ s.temp, node ∈ nbrs g t → (t, node) ∈ (visit g fuel node s).cycles)) := by
  intro fuel
  induction fuel with
  | zero =>
    intro node s h1 h2 h3 h4 hinv
    have hle : s.temp.length ≤ (allNodes g).length :=
      (List.Nodup.subperm h2 h3).length_le
    exact absurd h1 (by omega)
  | succ fuel ih =>
    intro node s h1 h2 h3 h4 hinv
    obtain ⟨i1, i2, i3, i4, i5⟩ := hinv
    by_cases hmem : node ∈ s.temp
    · -- node is in progress: report the back edges and return
      have hv : visit g (fuel + 1) node s =
          { s with cycles := s.cycles ++
              (s.temp.filter (fun t => node ∈ nbrs g t)).map (fun t => (t, node)) } := by
        simp only [visit, if_pos hmem]
      rw [hv]
      refine ⟨rfl, rfl, fun e he => List.mem_append_left _ he,
        ⟨i1, i2, i3, i4, ?_⟩, ⟨[], by simp, by simp⟩, Or.inr ⟨hmem, ?_⟩⟩
      · intro u hu v hv'
        rcases i5 u hu v hv' with h | h
        · exact Or.inl (List.mem_append_left _ h)
        · exact Or.inr h
      · intro t ht hnb
        refine List.mem_append_right _ ?_
        exact List.mem_map_of_mem _ (List.mem_filter.mpr ⟨ht, by simpa using hnb⟩)
    · by_cases hvis : node ∈ s.visited
      · -- node already finished: no-op
        have hv : visit g (fuel + 1) node s = s := by
          simp only [visit, if_neg hmem, if_pos hvis]
        rw [hv]
        exact ⟨rfl, rfl, fun e he => he, ⟨i1, i2, i3, i4, i5⟩,
          ⟨[], by simp, by simp⟩, Or.inl ((i1 node).mp hvis)⟩
      · -- fresh node: recurse into the neighbors, then finish the node
        have hnoderes : node ∉ s.result := fun h => hvis ((i1 node).mpr h)
        have htplus_nodup : (s.temp ++ [node]).Nodup := by
          refine List.Nodup.append h2 (List.nodup_singleton node) ?_
          intro a ha hb
          rcases List.mem_singleton.mp hb with rfl
          exact hmem ha
        have htplus_sub : ∀ x ∈ s.temp ++ [node], x ∈ allNodes g := by
          intro x hx
          rcases List.mem_append.mp hx with h | h
          · exact h3 x h
          · rcases List.mem_singleton.mp h with rfl; exact h4
        have hfuel : (allNodes g).length < fuel + (s.temp ++ [node]).length := by
          rw [List.length_append, List.length_singleton]; omega
        -- invariant through the fold over the neighbor list
        have hfold : ∀ (l : List Fpath), (∀ x ∈ l, x ∈ allNodes g) →
            ∀ (t : Dfs), t.temp = s.temp ++ [node] → DfsInv g t →
            ((l.foldl (fun st nb => visit g fuel nb st) t).temp = s.temp ++ [node] ∧
             (l.foldl (fun st nb => visit g fuel nb st) t).stuck = t.stuck ∧
             (∀ e ∈ t.cycles, e ∈ (l.foldl (fun st nb => visit g fuel nb st) t).cycles) ∧
             DfsInv g (l.foldl (fun st nb => visit g fuel nb st) t) ∧
             (∃ r, (l.foldl (fun st nb => visit g fuel nb st) t).result = t.result ++ r ∧
               ∀ x ∈ r, x ∉ s.temp ++ [node] ∧ x ∈ allNodes g ∧
                 (∀ v ∈ nbrs g x, v ∈ s.temp ++ [node] →
                    (x, v) ∈ (l.foldl (fun st nb => visit g fuel nb st) t).cycles) ∧
                 (∀ v ∈ nbrs g x,
                    v ∈ (l.foldl (fun st nb => visit g fuel nb st) t).result ∨
                    v ∈ s.temp ++ [node])) ∧
             (∀ nb ∈ l, nb ∈ (l.foldl (fun st nb => visit g fuel nb st) t).result ∨
               (nb ∈ s.temp ++ [node] ∧ ∀ t1 ∈ s.temp ++ [node], nb ∈ nbrs g t1 →
                 (t1, nb) ∈ (l.foldl (fun st nb => visit g fuel nb st) t).cycles))) := by
          intro l
          induction l with
          | nil =>
            intro _ t htemp hinvt
            exact ⟨htemp, rfl, fun e he => he, hinvt, ⟨[], by simp, by simp⟩, by simp⟩
          | cons a l ihl =>
            intro hl t htemp hinvt
            have hstep := ih a t (by rw [htemp]; exact hfuel)
              (htemp ▸ htplus_nodup) (htemp ▸ htplus_sub) (hl a (List.mem_cons_self a l))
              hinvt
            obtain ⟨p1, p2, p3, p4, ⟨r1, hr1, hr1p⟩, p6⟩ := hstep
            have hrest := ihl (fun x hx => hl x (List.mem_cons_of_mem a hx))
              (visit g fuel a t) (p1.trans htemp) p4
            obtain ⟨q1, q2, q3, q4, ⟨r2, hr2, hr2p⟩, q6⟩ := hrest
            rw [List.foldl_cons]
            refine ⟨q1, q2.trans p2, fun e he => q3 e (p3 e he), q4,
              ⟨r1 ++ r2, by rw [hr2, hr1, List.append_assoc], ?_⟩, ?_⟩
            · intro x hx
              rcases List.mem_append.mp hx with hx1 | hx2
              · obtain ⟨ha, hb, hc, hd⟩ := hr1p x hx1
                refine ⟨by rw [← htemp]; exact ha, hb, ?_, ?_⟩
                · intro v hv hvt
                  exact q3 _ (hc v hv (Or.inl (htemp ▸ hvt)))
                · intro v hv
                  rcases hd v hv with h | h
                  · exact Or.inl (by rw [hr2]; exact List.mem_append_left _ h)
                  · exact Or.inr (htemp ▸ h)
              · exact hr2p x hx2
            · intro nb hnb
              rcases List.mem_cons.mp hnb with rfl | hnb2
              · rcases p6 with h | ⟨ha, hb⟩
                · exact Or.inl (by rw [hr2]; exact List.mem_append_left _ h)
                · refine Or.inr ⟨htemp ▸ ha, ?_⟩
                  intro t1 ht1 hnb1
                  exact q3 _ (hb t1 (htemp ▸ ht1) hnb1)
              · exact q6 nb hnb2
        -- the state upon entering the neighbor loop
        have hinv1 : DfsInv g { s with temp := s.temp ++ [node] } := by
          refine ⟨i1, i2, ?_, i4, i5⟩
          intro x hx
          rcases List.mem_append.mp hx with h | h
          · exact i3 x h
          · rcases List.mem_singleton.mp h with rfl; exact hnoderes
        have hmain := hfold (nbrs g node) (fun x hx => nbrs_mem_allNodes hx)
          { s with temp := s.temp ++ [node] } rfl hinv1
        obtain ⟨a1, a2, a3, a4, ⟨r1, hr1, hr1p⟩, a6⟩ := hmain
        obtain ⟨j1, j2, j3, j4, j5⟩ := a4
        have hv : visit g (fuel + 1) node s =
            { (nbrs g node).foldl (fun st nb => visit g fuel nb st)
                { s with temp := s.temp ++ [node] } with
              temp := ((nbrs g node).foldl (fun st nb => visit g fuel nb st)
                { s with temp := s.temp ++ [node] }).temp.erase node,
              visited := ((nbrs g node).foldl (fun st nb => visit g fuel nb st)
                { s with temp := s.temp ++ [node] }).visited ++ [node],
              result := ((nbrs g node).foldl (fun st nb => visit g fuel nb st)
                { s with temp := s.temp ++ [node] }).result ++ [node] } := by
          simp only [visit, if_neg hmem, if_neg hvis]
        set s2 := (nbrs g node).foldl (fun st nb => visit g fuel nb st)
          { s with temp := s.temp ++ [node] } with hs2
        -- basic consequences
        have hnode_not_r1 : node ∉ r1 := fun h =>
          (hr1p node h).1 (List.mem_append_right _ (List.mem_singleton.mpr rfl))
        have hnode_nres2 : node ∉ s2.result := by
          rw [hr1]
          intro h
          rcases List.mem_append.mp h with h | h
          · exact hnoderes h
          · exact hnode_not_r1 h
        have htemp_restored : s2.temp.erase node = s.temp := by
          rw [a1, List.erase_append_right _ (by simpa using hmem),
            List.erase_cons_head, List.append_nil]
        rw [hv]
        refine ⟨?_, ?_, ?_, ?_, ?_, ?_⟩
        · exact htemp_restored
        · exact a2
        · exact a3
        · -- DfsInv after finishing the node
          refine ⟨?_, ?_, ?_, ?_, ?_⟩
          · intro x
            show x ∈ s2.visited ++ [node] ↔ x ∈ s2.result ++ [node]
            simp only [List.mem_append]
            exact or_congr (j1 x) Iff.rfl
          · show (s2.result ++ [node]).Nodup
            refine List.Nodup.append j2 (List.nodup_singleton node) ?_
            intro x hx hx2
            rcases List.mem_singleton.mp hx2 with rfl
            exact hnode_nres2 hx
          · intro x hx
            have hx0 : x ∈ s.temp := by
              rw [← htemp_restored]; exact hx
            show x ∉ s2.result ++ [node]
            have hx2 : x ∈ s2.temp := by
              rw [a1]; exact List.mem_append_left _ hx0
            intro hcon
            rcases List.mem_append.mp hcon with h | h
            · exact j3 x hx2 h
            · rcases List.mem_singleton.mp h with rfl; exact hmem hx0
          · intro x hx
            rcases List.mem_append.mp hx with h | h
            · exact j4 x h
            · rcases List.mem_singleton.mp h with rfl; exact h4
          · intro u hu v hv'
            show (u, v) ∈ s2.cycles ∨ [v, u].Sublist (s2.result ++ [node])
            rcases List.mem_append.mp hu with hu1 | hu1
            · rcases j5 u hu1 v hv' with h | h
              · exact Or.inl h
              · exact Or.inr (h.trans (List.sublist_append_left _ _))
            · rcases List.mem_singleton.mp hu1 with rfl
              rcases a6 v hv' with h | ⟨ha, hb⟩
              · refine Or.inr ?_
                show ([v] ++ [u]).Sublist (s2.result ++ [u])
                exact List.Sublist.append (List.singleton_sublist.mpr h)
                  (List.Sublist.refl _)
              · exact Or.inl (hb u (List.mem_append_right _ (List.mem_singleton.mpr rfl)) hv')
        · -- result extension and the properties of the newly finished nodes
          refine ⟨r1 ++ [node], ?_, ?_⟩
          · show s2.result ++ [node] = s.result ++ (r1 ++ [node])
            rw [hr1, List.append_assoc]
          · intro x hx
            rcases List.mem_append.mp hx with hx1 | hx1
            · obtain ⟨ha, hb, hc, hd⟩ := hr1p x hx1
              refine ⟨fun h => ha (List.mem_append_left _ h), hb, ?_, ?_⟩
              · intro v hv' hvt
                refine hc v hv' ?_
                rcases hvt with h | rfl
                · exact List.mem_append_left _ h
                · exact List.mem_append_right _ (List.mem_singleton.mpr rfl)
              · intro v hv'
                rcases hd v hv' with h | h
                · exact Or.inl (List.mem_append_left _ h)
                · rcases List.mem_append.mp h with h | h
                  · exact Or.inr h
                  · rcases List.mem_singleton.mp h with rfl
                    exact Or.inl (List.mem_append_right _ (List.mem_singleton.mpr rfl))
            · rcases List.mem_singleton.mp hx1 with rfl
              refine ⟨hmem, h4, ?_, ?_⟩
              · intro v hv' hvt
                rcases a6 v hv' with h | ⟨ha, hb⟩
                · exfalso
                  rcases hvt with hvt | rfl
                  · exact j3 v (by rw [a1]; exact List.mem_append_left _ hvt) h
                  · exact hnode_nres2 h
                · exact hb x (List.mem_append_right _ (List.mem_singleton.mpr rfl)) hv'
              · intro v hv'
                rcases a6 v hv' with h | ⟨ha, _⟩
                · exact Or.inl (List.mem_append_left _ h)
                · rcases List.mem_append.mp ha with h | h
                  · exact Or.inr h
                  · rcases List.mem_singleton.mp h with rfl
                    exact Or.inl (List.mem_append_right _ (List.mem_singleton.mpr rfl))
        · exact Or.inl (List.mem_append_right _ (List.mem_singleton.mpr rfl))

/-- Invariant through the driver loop `for node in graph: ...`
(src/bundler_logic.py lines 240-242). -/
theorem topoSort_fold (g : GraphAL) : ∀ (ks : List Fpath),
    (∀ k ∈ ks, k ∈ allNodes g) →
    ∀ (t : Dfs), t.temp = [] → DfsInv g t →
    ((ks.foldl (fun st k => if k ∈ st.visited then st
        else visit g ((allNodes g).length + 1) k st) t).temp = [] ∧
     (ks.foldl (fun st k => if k ∈ st.visited then st
        else visit g ((allNodes g).length + 1) k st) t).stuck = t.stuck ∧
     (∀ e ∈ t.cycles, e ∈ (ks.foldl (fun st k => if k ∈ st.visited then st
        else visit g ((allNodes g).length + 1) k st) t).cycles) ∧
     DfsInv g (ks.foldl (fun st k => if k ∈ st.visited then st
        else visit g ((allNodes g).length + 1) k st) t) ∧
     (∃ r, (ks.foldl (fun st k => if k ∈ st.visited then st
        else visit g ((allNodes g).length + 1) k st) t).result = t.result ++ r) ∧
     (∀ k ∈ ks, k ∈ (ks.foldl (fun st k => if k ∈ st.visited then st
        else visit g ((allNodes g).length + 1) k st) t).result)) := by
  intro ks
  induction ks with
  | nil =>
    intro _ t htemp hinvt
    exact ⟨htemp, rfl, fun e he => he, hinvt, ⟨[], by simp⟩, by simp⟩
  | cons k ks ihl =>
    intro hks t htemp hinvt
    rw [List.foldl_cons]
    by_cases hkv : k ∈ t.visited
    · rw [if_pos hkv]
      obtain ⟨q1, q2, q3, q4, ⟨r2, hr2⟩, q6⟩ :=
        ihl (fun x hx => hks x (List.mem_cons_of_mem k hx)) t htemp hinvt
      refine ⟨q1, q2, q3, q4, ⟨r2, hr2⟩, ?_⟩
      intro x hx
      rcases List.mem_cons.mp hx with rfl | hx2
      · rw [hr2]
        exact List.mem_append_left _ ((hinvt.1 x).mp hkv)
      · exact q6 x hx2
    · rw [if_neg hkv]
      have hstep := visit_main g ((allNodes g).length + 1) k t
        (by rw [htemp]; simp) (by rw [htemp]; exact List.nodup_nil)
        (by rw [htemp]; intro x hx; cases hx) (hks k (List.mem_cons_self k ks))
        hinvt
      obtain ⟨p1, p2, p3, p4, ⟨r1, hr1, _⟩, p6⟩ := hstep
      have hkres : k ∈ (visit g ((allNodes g).length + 1) k t).result := by
        rcases p6 with h | ⟨h, _⟩
        · exact h
        · rw [htemp] at h; cases h
      obtain ⟨q1, q2, q3, q4, ⟨r2, hr2⟩, q6⟩ :=
        ihl (fun x hx => hks x (List.mem_cons_of_mem k hx))
          (visit g ((allNodes g).length + 1) k t) (p1.trans htemp) p4
      refine ⟨q1, q2.trans p2, fun e he => q3 e (p3 e he), q4,
        ⟨r1 ++ r2, by rw [hr2, hr1, List.append_assoc]⟩, ?_⟩
      intro x hx
      rcases List.mem_cons.mp hx with rfl | hx2
      · rw [hr2]; exact List.mem_append_left _ hkres
      · exact q6 x hx2

/-- `topological_sort` terminates within its fuel, keeps the invariant, and
its result contains every key of the graph. -/
theorem topoSort_main (g : GraphAL) :
    (topoSort g).temp = [] ∧ (topoSort g).stuck = false ∧ DfsInv g (topoSort g) ∧
    (∀ k ∈ graphKeys g, k ∈ (topoSort g).result) := by
  have hinv0 : DfsInv g (⟨[], [], [], [], false⟩ : Dfs) := by
    refine ⟨fun x => Iff.rfl, List.nodup_nil, ?_, ?_, ?_⟩
    · intro x hx; cases hx
    · intro x hx; cases hx
    · intro u hu; cases hu
  obtain ⟨q1, q2, q3, q4, _, q6⟩ := topoSort_fold g (graphKeys g)
    (fun k hk => graphKeys_subset_allNodes hk) ⟨[], [], [], [], false⟩ rfl hinv0
  exact ⟨q1, q2, q4, q6⟩

/-- A set of nodes containing `entry` and closed under dependency edges
contains everything reachable from `entry`. -/
theorem Reaches_closed {g : GraphAL} {entry : Fpath} {res : List Fpath}
    (hnd : (graphKeys g).Nodup) (hbase : entry ∈ res)
    (hclosed : ∀ u ∈ res, ∀ v ∈ nbrs g u, v ∈ res) :
    ∀ x, Reaches g entry x → x ∈ res := by
  intro x hx
  induction hx with
  | refl => exact hbase
  | step _ hmem hd ihp =>
    exact hclosed _ ihp _ (by rw [nbrs_eq_of_mem hnd hmem]; exact hd)

/-- When the entry file is the first key of the graph dict and every key is
reachable from it (which `buildGraph_completed` guarantees for built graphs),
every dependency edge pointing back at the entry file is reported as a cycle
edge. -/
theorem topoSort_entry_cycles (g : GraphAL) (entry : Fpath)
    (hhead : (graphKeys g).head? = some entry)
    (hnd : (graphKeys g).Nodup)
    (hreach : ∀ k ∈ graphKeys g, Reaches g entry k) :
    ∀ u ∈ graphKeys g, entry ∈ nbrs g u → (u, entry) ∈ (topoSort g).cycles := by
  rcases hks : graphKeys g with _ | ⟨k0, ks⟩
  · rw [hks] at hhead; cases hhead
  · have hk0 : k0 = entry := by rw [hks] at hhead; simpa using hhead
    rw [hk0] at hks
    have hentry_all : entry ∈ allNodes g :=
      graphKeys_subset_allNodes (by rw [hks]; exact List.mem_cons_self _ _)
    have hinv0 : DfsInv g (⟨[], [], [], [], false⟩ : Dfs) := by
      refine ⟨fun x => Iff.rfl, List.nodup_nil, ?_, ?_, ?_⟩
      · intro x hx; cases hx
      · intro x hx; cases hx
      · intro u hu; cases hu
    have hstep := visit_main g ((allNodes g).length + 1) entry
      ⟨[], [], [], [], false⟩ (by simp) List.nodup_nil
      (by intro x hx; cases hx) hentry_all hinv0
    obtain ⟨p1, p2, p3, p4, ⟨r1, hr1, hr1p⟩, p6⟩ := hstep
    set t1 := visit g ((allNodes g).length + 1) entry (⟨[], [], [], [], false⟩ : Dfs)
      with ht1
    have hres1 : t1.result = r1 := by simpa using hr1
    have hentry_res : entry ∈ t1.result := by
      rcases p6 with h | ⟨h, _⟩
      · exact h
      · cases h
    -- everything reachable from the entry is finished by the first call
    have hclosed : ∀ u ∈ t1.result, ∀ v ∈ nbrs g u, v ∈ t1.result := by
      intro u hu v hv
      have hu_r1 : u ∈ r1 := by rw [← hres1]; exact hu
      obtain ⟨_, _, _, hd4⟩ := hr1p u hu_r1
      rcases hd4 v hv with h | h
      · exact h
      · cases h
    have hreach_res : ∀ x, Reaches g entry x → x ∈ t1.result :=
      Reaches_closed hnd hentry_res hclosed
    -- the main claim, first for the state after the first call
    have hcyc1 : ∀ u ∈ graphKeys g, entry ∈ nbrs g u → (u, entry) ∈ t1.cycles := by
      intro u hu hnb
      have hu_r1 : u ∈ r1 := by
        rw [← hres1]; exact hreach_res u (hreach u hu)
      obtain ⟨_, _, hstar, _⟩ := hr1p u hu_r1
      exact hstar entry hnb (Or.inr rfl)
    -- the remaining driver steps only extend the cycle list
    obtain ⟨_, _, q3, _, _, _⟩ := topoSort_fold g ks
      (fun x hx => graphKeys_subset_allNodes (by rw [hks]; exact List.mem_cons_of_mem _ hx))
      t1 p1 p4
    intro u hu hnb
    have hu2 : u ∈ graphKeys g := by rw [hks]; exact hk0 ▸ hu
    have hmem1 : (u, entry) ∈ t1.cycles := hcyc1 u hu2 hnb
    have hfold_eq : topoSort g = ks.foldl (fun st k => if k ∈ st.visited then st
        else visit g ((allNodes g).length + 1) k st) t1 := by
      unfold topoSort
      rw [hks, List.foldl_cons, if_neg (by intro h; cases h)]
    rw [hfold_eq]
    exact q3 _ hmem1

/-- Position of the first occurrence of a node in a list. -/
def posIn : List Fpath → Fpath → Nat
  | [], _ => 0
  | a :: l, b => if a = b then 0 else posIn l b + 1

/-- In a duplicate-free list, a `[v, u]` sublist means `v` is positioned
before `u`. -/
theorem sublist_pair_posIn {l : List Fpath} {v u : Fpath}
    (h : [v, u].Sublist l) (hnd : l.Nodup) : posIn l v < posIn l u := by
  induction l with
  | nil => exact absurd (List.sublist_nil.mp h) (by simp)
  | cons a l ih =>
    cases h with
    | cons _ h' =>
      have hna := (List.nodup_cons.mp hnd).1
      have hnd' := (List.nodup_cons.mp hnd).2
      have hv : v ∈ l := h'.subset (by simp)
      have hu : u ∈ l := h'.subset (by simp)
      have hav : ¬ a = v := fun he => hna (he ▸ hv)
      have hau : ¬ a = u := fun he => hna (he ▸ hu)
      simp only [posIn, if_neg hav, if_neg hau]
      exact Nat.succ_lt_succ (ih h' hnd')
    | cons₂ _ h' =>
      have hna := (List.nodup_cons.mp hnd).1
      have hu : u ∈ l := h'.subset (by simp)
      have hau : ¬ v = u := fun he => hna (he ▸ hu)
      simp only [posIn, if_pos rfl, if_neg hau]
      exact Nat.succ_pos _
  
/-- Walking a cycle along edges that all strictly decrease a measure is
impossible; stated as the closing step of the decreasing chain. -/
theorem zip_chain_lt (f : Fpath → Nat) : ∀ (l : List Fpath) (a b : Fpath),
    (∀ p ∈ (a :: l).zip (l ++ [b]), f p.2 < f p.1) → f b < f a := by
  intro l
  induction l with
  | nil => intro a b h; exact h (a, b) (by simp)
  | cons c l ih =>
    intro a b h
    have h1 : f c < f a := h (a, c) (by simp)
    have h2 : f b < f c := ih c b (fun p hp => h p (by simpa using Or.inr hp))
    omega

/-- Removing a node distinct from both members keeps a `[v, u]` sublist. -/
theorem sublist_pair_erase {l : List Fpath} {v u e : Fpath}
    (h : [v, u].Sublist l) (hv : v ≠ e) (hu : u ≠ e) :
    [v, u].Sublist (l.erase e) := by
  have h2 := List.Sublist.erase e h
  rwa [List.erase_of_not_mem ?hm] at h2
  case hm =>
    intro hmem
    rcases List.mem_cons.mp hmem with he | he
    · exact hv he.symm
    · rcases List.mem_singleton.mp he with he2
      exact hu he2.symm

/-- C1: in the graph built by `build_dependency_graph` from an in-root entry
file (with only in-root dependencies reported, and the worklist run to
completion), every dependency edge `(u depends on v)` that is not among the
reported cycle edges has `v` preceding `u` in the final bundle order, and the
entry file occupies the last position of the final order. -/
theorem claim_C1_order_entry_last
    (imports : Fpath → List Fpath) (inRoot : Fpath → Bool) (entry : Fpath)
    (fuel : Nat)
    (hentry : inRoot entry = true)
    (himp : ∀ x d, d ∈ imports x → inRoot d = true)
    (hdone : (buildGraph imports inRoot entry fuel).queue = []) :
    (∀ u v, v ∈ nbrs (buildGraph imports inRoot entry fuel).graph u →
      (u, v) ∉ (topoSort (buildGraph imports inRoot entry fuel).graph).cycles →
      [v, u].Sublist (finalOrder (buildGraph imports inRoot entry fuel).graph entry)) ∧
    (finalOrder (buildGraph imports inRoot entry fuel).graph entry).getLast? =
      some entry := by
  set g := (buildGraph imports inRoot entry fuel).graph with hg
  obtain ⟨hhead, hnd, hreach, hvals, hentrykey⟩ :=
    buildGraph_completed hentry himp hdone
  obtain ⟨htemp, hstuck, ⟨i1, i2, i3, i4, i5⟩, hkeys_res⟩ := topoSort_main g
  have hcycE := topoSort_entry_cycles g entry hhead hnd hreach
  have hentry_res : entry ∈ (topoSort g).result := hkeys_res entry hentrykey
  have hfo : finalOrder g entry = ((topoSort g).result.erase entry) ++ [entry] := by
    simp only [finalOrder]
    rw [if_pos hentry_res]
  refine ⟨?_, ?_⟩
  · intro u v hvnb hnotc
    have hukey : u ∈ graphKeys g := nbrs_key hvnb
    have hures : u ∈ (topoSort g).result := hkeys_res u hukey
    rw [hfo]
    by_cases hve : v = entry
    · exact absurd (hcycE u hukey (hve ▸ hvnb)) (hve ▸ hnotc)
    · by_cases hue : u = entry
      · rcases i5 u hures v hvnb with h | h
        · exact absurd h hnotc
        · have hvres : v ∈ (topoSort g).result := h.subset (by simp)
          have hvres' : v ∈ (topoSort g).result.erase entry :=
            (List.mem_erase_of_ne hve).mpr hvres
          rw [hue]
          show ([v] ++ [entry]).Sublist _
          exact List.Sublist.append (List.singleton_sublist.mpr hvres')
            (List.Sublist.refl _)
      · rcases i5 u hures v hvnb with h | h
        · exact absurd h hnotc
        · exact (sublist_pair_erase h hve hue).trans (List.sublist_append_left _ _)
  · rw [hfo, List.getLast?_concat]

/-- Number of occurrences of a node in a list. -/
def countIn : List Fpath → Fpath → Nat
  | [], _ => 0
  | b :: l, a => (if b = a then 1 else 0) + countIn l a

theorem countIn_eq_zero {l : List Fpath} {a : Fpath} (h : a ∉ l) :
    countIn l a = 0 := by
  induction l with
  | nil => rfl
  | cons b l ih =>
    have hba : ¬ b = a := fun he => h (he ▸ List.mem_cons_self b l)
    simp only [countIn, if_neg hba, Nat.zero_add]
    exact ih (fun h2 => h (List.mem_cons_of_mem b h2))

theorem countIn_eq_one {l : List Fpath} {a : Fpath} (hnd : l.Nodup)
    (h : a ∈ l) : countIn l a = 1 := by
  induction l with
  | nil => cases h
  | cons b l ih =>
    obtain ⟨hb, hnd'⟩ := List.nodup_cons.mp hnd
    rcases List.mem_cons.mp h with rfl | h2
    · simp only [countIn, if_pos rfl]
      rw [countIn_eq_zero hb]
      simp
    · have hba : ¬ b = a := fun he => hb (he ▸ h2)
      simp only [countIn, if_neg hba, Nat.zero_add]
      exact ih hnd' h2

/-- C3: for every input graph — cyclic or not — the sort never exhausts its
recursion bound (`stuck = false`), its result has no duplicates, and every
discovered file (key of the graph) appears exactly once. -/
theorem claim_C3_terminates_exactly_once : ∀ (g : GraphAL),
    (topoSort g).stuck = false ∧ (topoSort g).result.Nodup ∧
    ∀ k ∈ graphKeys g, countIn (topoSort g).result k = 1 := by
  intro g
  obtain ⟨_, hstuck, ⟨_, i2, _, _, _⟩, hkeys⟩ := topoSort_main g
  exact ⟨hstuck, i2, fun k hk => countIn_eq_one i2 (hkeys k hk)⟩

/-- The ordered pairs of consecutive nodes around a cycle, the closing edge
included. -/
def cyclePairs : List Fpath → List (Fpath × Fpath)
  | [] => []
  | a :: l => (a :: l).zip (l ++ [a])

/-- `c` lists the nodes of a cycle of the graph: nonempty, with every
consecutive pair (wrapping around) a dependency edge. -/
def IsCycle (g : GraphAL) (c : List Fpath) : Prop :=
  c ≠ [] ∧ ∀ p ∈ cyclePairs c, p.2 ∈ nbrs g p.1

/-- C8: every cycle of the input graph gets at least one of its edges
reported among the returned cycle edges, and the sort still returns an order
covering every file exactly once. -/
theorem claim_C8_cycle_reported : ∀ (g : GraphAL) (c : List Fpath),
    IsCycle g c →
    (∃ p ∈ cyclePairs c, p ∈ (topoSort g).cycles) ∧
    ∀ k ∈ graphKeys g, countIn (topoSort g).result k = 1 := by
  intro g c hc
  obtain ⟨hne, hcyc⟩ := hc
  obtain ⟨_, _, ⟨_, i2, _, _, i5⟩, hkeys⟩ := topoSort_main g
  refine ⟨?_, fun k hk => countIn_eq_one i2 (hkeys k hk)⟩
  by_contra hnone
  push_neg at hnone
  have hlt : ∀ p ∈ cyclePairs c,
      posIn (topoSort g).result p.2 < posIn (topoSort g).result p.1 := by
    intro p hp
    have hedge := hcyc p hp
    have hsrc_res : p.1 ∈ (topoSort g).result := hkeys _ (nbrs_key hedge)
    rcases i5 p.1 hsrc_res p.2 hedge with h | h
    · exact absurd h (hnone p hp)
    · exact sublist_pair_posIn h i2
  cases c with
  | nil => exact hne rfl
  | cons a l =>
    have hfin := zip_chain_lt (fun x => posIn (topoSort g).result x) l a a
      (fun p hp => hlt p hp)
    omega

/-! ## Concrete instances used as witnesses -/

/-- The project root is the filesystem root: everything is in-root. -/
def inRootAll : Fpath → Bool := fun p => isRelTo p []

theorem inRootAll_true (p : Fpath) : inRootAll p = true := by
  cases p <;> rfl

/-- A diamond project: the entry imports `b` and `c`, both import `d`. -/
def importsDiamond : Fpath → List Fpath := fun x =>
  if x = ["main.py"] then [["b.py"], ["c.py"]]
  else if x = ["b.py"] then [["d.py"]]
  else if x = ["c.py"] then [["d.py"]]
  else []

/-- A mutual cycle: `a` imports `b`, `b` imports `a`. -/
def gMutual : GraphAL := [(["a.py"], [["b.py"]]), (["b.py"], [["a.py"]])]

theorem claim_C1_witness :
    (finalOrder (buildGraph importsDiamond inRootAll ["main.py"] 10).graph
      ["main.py"]).getLast? = some ["main.py"] :=
  (claim_C1_order_entry_last importsDiamond inRootAll ["main.py"] 10
    (inRootAll_true _) (fun _ d _ => inRootAll_true d) (by decide)).2

theorem claim_C3_witness :
    countIn (topoSort gMutual).result ["a.py"] = 1 :=
  (claim_C3_terminates_exactly_once gMutual).2.2 ["a.py"] (by decide)

theorem claim_C8_witness :
    ∃ p ∈ cyclePairs [["a.py"], ["b.py"]], p ∈ (topoSort gMutual).cycles :=
  (claim_C8_cycle_reported gMutual [["a.py"], ["b.py"]] ⟨by decide, by decide⟩).1

/-! ## C4: the in-root invariant of graph building -/

/-- The lean form of the builder's root invariant: keys stay in-root by the
explicit guard, values by the analyzer's guarantee. -/
theorem buildRun_root_inv (imports : Fpath → List Fpath) (inRoot : Fpath → Bool)
    (himp : ∀ x d, d ∈ imports x → inRoot d = true) :
    ∀ (fuel : Nat) (s : BuildSt),
    (∀ k ∈ graphKeys s.graph, inRoot k = true) →
    (∀ kv ∈ s.graph, ∀ d ∈ kv.2, inRoot d = true) →
    ((∀ k ∈ graphKeys (buildRun imports inRoot fuel s).graph, inRoot k = true) ∧
     (∀ kv ∈ (buildRun imports inRoot fuel s).graph, ∀ d ∈ kv.2, inRoot d = true)) := by
  intro fuel
  induction fuel with
  | zero => intro s h1 h2; exact ⟨h1, h2⟩
  | succ n ih =>
    intro s h1 h2
    unfold buildRun
    cases hq : s.queue with
    | nil => exact ⟨h1, h2⟩
    | cons f rest =>
      apply ih
      all_goals
        unfold buildStep
        rw [hq]
      · by_cases hv : f ∈ s.visited
        · simpa [hv] using h1
        · by_cases hr : inRoot f = true
          · simp only [hv, if_neg, not_false_iff, hr, not_true, if_pos]
            intro k hk
            simp only [graphKeys, List.map_append, List.map_cons] at hk
            rcases List.mem_append.mp hk with h | h
            · exact h1 k h
            · rcases List.mem_singleton.mp h with rfl; exact hr
          · simpa [hv, hr] using h1
      · by_cases hv : f ∈ s.visited
        · simpa [hv] using h2
        · by_cases hr : inRoot f = true
          · simp only [hv, if_neg, not_false_iff, hr, not_true, if_pos]
            intro kv hkv d hd
            rcases List.mem_append.mp hkv with h | h
            · exact h2 kv h d hd
            · rcases List.mem_singleton.mp h with rfl
              exact himp f d hd
          · simpa [hv, hr] using h2

/-- C4: module resolution only ever returns paths under the project root (a
specifier resolving outside it yields `None`, hence no node and no edge), and
every key and every dependency value of the built graph is in-root. -/
theorem claim_C4_root_invariant :
    (∀ (w : World) (root f : Fpath) (m : String) (level : Nat) (p : Fpath),
      resolveModule w root f m level = Except.ok (some p) →
      isRelTo p root = true) ∧
    (∀ (imports : Fpath → List Fpath) (inRoot : Fpath → Bool)
      (entry : Fpath) (fuel : Nat),
      (∀ x d, d ∈ imports x → inRoot d = true) →
      (∀ k ∈ graphKeys (buildGraph imports inRoot entry fuel).graph,
        inRoot k = true) ∧
      (∀ kv ∈ (buildGraph imports inRoot entry fuel).graph, ∀ d ∈ kv.2,
        inRoot d = true)) := by
  constructor
  · intro w root f m level p h
    exact resolveModule_relTo h
  · intro imports inRoot entry fuel himp
    exact buildRun_root_inv imports inRoot himp fuel ⟨[entry], [], [], []⟩
      (by intro k hk; simp [graphKeys] at hk)
      (by intro kv hkv; simp at hkv)

/-- World for the C4 witness: the project root `/r` holds `utils.py`. -/
def w4 : World :=
  { isFile := fun p => decide (p = ["r", "utils.py"]),
    isDir := fun _ => false,
    findSpec := fun _ => SpecRes.notFound }

theorem claim_C4_witness :
    isRelTo ["r", "utils.py"] ["r"] = true ∧ inRootAll ["b.py"] = true :=
  ⟨claim_C4_root_invariant.1 w4 ["r"] ["r", "m.py"] "utils" 0 ["r", "utils.py"]
      rfl,
   (claim_C4_root_invariant.2 importsDiamond inRootAll ["main.py"] 10
      (fun _ d _ => inRootAll_true d)).1 ["b.py"] (by decide)⟩

/-! ## C5: relative level exceeding the available ancestors -/

theorem parentDir_iterate_nil : ∀ (n : Nat) (l : Fpath),
    l.length ≤ n → parentDir^[n] l = [] := by
  intro n
  induction n with
  | zero =>
    intro l h
    rcases List.length_eq_zero.mp (Nat.le_zero.mp h) with rfl
    rfl
  | succ n ih =>
    intro l h
    rw [Function.iterate_succ_apply]
    apply ih
    have hdl := List.length_dropLast l
    unfold parentDir
    omega

/-- World for the C5 counterexample: `/r/utils.py` exists, the importing file
sits at `/r/pkg/mod.py`. -/
def w5 : World :=
  { isFile := fun p => decide (p = ["r", "utils.py"]),
    isDir := fun _ => false,
    findSpec := fun _ => SpecRes.notFound }

/-- C5 counterexample: `from ....utils import x` in `/r/pkg/mod.py` has a
relative level (4) exceeding the available ancestors (the walk saturates at
`/`), yet resolution does NOT return `NotLocal`: the project-root retry of
`_resolve_module` (lines 115-125) finds `/r/utils.py` and returns it. -/
theorem claim_C5_counterexample :
    4 - 1 > (parentDir ["r", "pkg", "mod.py"]).length ∧
    resolveModule w5 ["r"] ["r", "pkg", "mod.py"] "utils" 4 =
      Except.ok (some ["r", "utils.py"]) := by
  exact ⟨by decide, rfl⟩

/-- C5 amended: when the relative level exceeds the available ancestors the
parent walk saturates at the filesystem root instead of raising, and
resolution yields `NotLocal`, or a path under the project root (via the
root-relative retry), or — only through the `with_suffix` `ValueError` on an
empty-name path — an exception that `find_imports` catches. -/
theorem claim_C5_amended_clamp_or_root :
    ∀ (w : World) (root f : Fpath) (m : String) (level : Nat),
    level - 1 > (parentDir f).length →
    parentDir^[level - 1] (parentDir f) = [] ∧
    (resolveModule w root f m level = Except.ok none ∨
     (∃ p, resolveModule w root f m level = Except.ok (some p) ∧
        isRelTo p root = true) ∨
     resolveModule w root f m level = Except.error ()) := by
  intro w root f m level hover
  constructor
  · exact parentDir_iterate_nil _ _ (Nat.le_of_lt hover)
  · cases hres : resolveModule w root f m level with
    | error e => cases e; exact Or.inr (Or.inr rfl)
    | ok o =>
      cases o with
      | none => exact Or.inl rfl
      | some p => exact Or.inr (Or.inl ⟨p, rfl, resolveModule_relTo hres⟩)

theorem claim_C5_amended_witness :
    parentDir^[4 - 1] (parentDir ["r", "pkg", "mod.py"]) = [] ∧
    (resolveModule w5 ["r"] ["r", "pkg", "mod.py"] "zzz" 4 = Except.ok none ∨
     (∃ p, resolveModule w5 ["r"] ["r", "pkg", "mod.py"] "zzz" 4 =
        Except.ok (some p) ∧ isRelTo p ["r"] = true) ∨
     resolveModule w5 ["r"] ["r", "pkg", "mod.py"] "zzz" 4 = Except.error ()) :=
  claim_C5_amended_clamp_or_root w5 ["r"] ["r", "pkg", "mod.py"] "zzz" 4 (by decide)

/-! ## C6 and C7: orchestrator error flow -/

/-- An environment whose root-location phase raises. -/
def envBoom : RunEnv :=
  { entryIsFile := true, entry := ["r", "m.py"],
    rootLoc := Except.error "boom",
    buildPhase := fun _ => Except.ok [],
    sortPhase := fun _ => Except.ok [],
    writePhase := fun _ => Except.ok () }

/-- C6 counterexample: `find_project_root` is called outside every `try`
block of `run_bundling_process` (line 303), so an exception raised during
root-location propagates to the caller instead of being converted into a
`False` return. -/
theorem claim_C6_counterexample : runProcess envBoom = Except.error "boom" := rfl

/-- C6 amended: provided root-location itself does not raise, the
orchestrator never propagates an exception — failures of the graph-building,
sorting and writing phases are each caught and turned into `False`. -/
theorem claim_C6_amended_catches_after_root :
    ∀ (env : RunEnv) (ro : Option Fpath), env.rootLoc = Except.ok ro →
    (∃ b, runProcess env = Except.ok b) ∧
    (env.entryIsFile = true →
      ∀ e, env.buildPhase (ro.getD (parentDir env.entry)) = Except.error e →
      runProcess env = Except.ok false) := by
  intro env ro hro
  by_cases hef : env.entryIsFile
  · have hne : ¬ ¬ env.entryIsFile = true := fun hn => hn hef
    cases hb : env.buildPhase (ro.getD (parentDir env.entry)) with
    | error e =>
      have hrun : runProcess env = Except.ok false := by
        unfold runProcess runProcessTr
        simp only [hro]
        rw [if_neg hne, hb]
      exact ⟨⟨false, hrun⟩, fun _ _ _ => hrun⟩
    | ok g =>
      refine ⟨?_, fun _ e he => Except.noConfusion he⟩
      cases hs : env.sortPhase g with
      | error e =>
        refine ⟨false, ?_⟩
        unfold runProcess runProcessTr
        simp only [hro]
        rw [if_neg hne, hb]
        simp only []
        rw [hs]
      | ok order =>
        cases hw : env.writePhase order with
        | error e =>
          refine ⟨false, ?_⟩
          unfold runProcess runProcessTr
          simp only [hro]
          rw [if_neg hne, hb]
          simp only []
          rw [hs]
          simp only []
          rw [hw]
        | ok u =>
          refine ⟨true, ?_⟩
          unfold runProcess runProcessTr
          simp only [hro]
          rw [if_neg hne, hb]
          simp only []
          rw [hs]
          simp only []
          rw [hw]
  · have hrun : runProcess env = Except.ok false := by
      unfold runProcess runProcessTr
      rw [if_pos hef]
    exact ⟨⟨false, hrun⟩, fun h => absurd h hef⟩

/-- An environment whose graph-building phase raises but whose root-location
succeeds. -/
def envOk : RunEnv :=
  { entryIsFile := true, entry := ["r", "m.py"],
    rootLoc := Except.ok (some ["r"]),
    buildPhase := fun _ => Except.error "graph boom",
    sortPhase := fun _ => Except.ok [],
    writePhase := fun _ => Except.ok () }

theorem claim_C6_amended_witness : runProcess envOk = Except.ok false :=
  (claim_C6_amended_catches_after_root envOk (some ["r"]) rfl).2 rfl
    "graph boom" rfl

/-- C7: a missing entry file makes the run return failure before any graph
work, with the writer (which creates the output file) never invoked. -/
theorem claim_C7_missing_entry :
    ∀ (env : RunEnv), env.entryIsFile = false →
    runProcessTr env = (Except.ok false, false, false) := by
  intro env h
  unfold runProcessTr
  rw [h]
  simp

/-- An environment with a missing entry file. -/
def envMissing : RunEnv :=
  { entryIsFile := false, entry := ["x.py"],
    rootLoc := Except.ok none,
    buildPhase := fun _ => Except.ok [],
    sortPhase := fun _ => Except.ok [],
    writePhase := fun _ => Except.ok () }

theorem claim_C7_witness :
    runProcessTr envMissing = (Except.ok false, false, false) :=
  claim_C7_missing_entry envMissing rfl

/-! ## C9: the bundle writer's per-file block format -/

theorem concatAll_append (a b : List String) :
    concatAll (a ++ b) = concatAll a ++ concatAll b := by
  induction a with
  | nil => rfl
  | cons s a ih =>
    show s ++ concatAll (a ++ b) = (s ++ concatAll a) ++ concatAll b
    rw [ih, ← String.append_assoc]

theorem normalizeSep_append (a b : String) :
    normalizeSep (a ++ b) = normalizeSep a ++ normalizeSep b := by
  unfold normalizeSep
  show String.mk (((a ++ b).data).map _) = _
  rw [String.data_append, List.map_append]
  rfl

theorem normalizeSep_id {s : String} (h : ∀ ch ∈ s.data, ¬ ch = '\\') :
    normalizeSep s = s := by
  unfold normalizeSep
  have hmap : s.data.map (fun c => if c = '\\' then '/' else c) = s.data := by
    have hcongr : s.data.map (fun c => if c = '\\' then '/' else c) =
        s.data.map id :=
      List.map_congr_left (fun c hc => by simp [h c hc])
    rw [hcongr]
    exact List.map_id s.data
  rw [hmap]

theorem normalizeSep_singleton (sep : Char) (hsep : sep = '/' ∨ sep = '\\') :
    normalizeSep (String.singleton sep) = String.singleton '/' := by
  rcases hsep with rfl | rfl <;> rfl

theorem normalizeSep_joinChar (sep : Char) (hsep : sep = '/' ∨ sep = '\\') :
    ∀ (cs : List String), (∀ comp ∈ cs, ∀ ch ∈ comp.data, ¬ ch = '\\') →
    normalizeSep (joinChar sep cs) = joinChar '/' cs := by
  intro cs
  induction cs with
  | nil => intro _; rfl
  | cons c cs ih =>
    intro hcs
    cases cs with
    | nil => exact normalizeSep_id (hcs c (List.mem_singleton.mpr rfl))
    | cons c2 cs2 =>
      show normalizeSep (c ++ String.singleton sep ++ joinChar sep (c2 :: cs2)) =
           c ++ String.singleton '/' ++ joinChar '/' (c2 :: cs2)
      rw [normalizeSep_append, normalizeSep_append,
        normalizeSep_id (hcs c (List.mem_cons_self _ _)),
        normalizeSep_singleton sep hsep,
        ih (fun comp hcomp => hcs comp (List.mem_cons_of_mem _ hcomp))]

theorem pyEndsNl_pad (c : String) :
    pyEndsNl (c ++ (if pyEndsNl c then "" else "\n")) = true := by
  by_cases h : pyEndsNl c = true
  · rw [if_pos h]
    have hce : c ++ "" = c := by
      show String.mk (c.data ++ []) = c
      rw [List.append_nil]
    rw [hce, h]
  · rw [if_neg h]
    unfold pyEndsNl
    rw [String.data_append]
    show ((c.data ++ ['\n']).getLast? == some '\n') = true
    rw [List.getLast?_concat]
    rfl

theorem bundleOutput_decompose (sep : Char) (root : Fpath)
    (readF : Fpath → ReadRes) {files : List Fpath} {u : Fpath}
    (h : u ∈ files) :
    ∃ pre post, bundleOutput sep root readF files =
      pre ++ fileBlock sep root readF u ++ post := by
  obtain ⟨l1, l2, rfl⟩ := List.append_of_mem h
  refine ⟨concatAll (l1.map (fileBlock sep root readF)),
          concatAll (l2.map (fileBlock sep root readF)), ?_⟩
  unfold bundleOutput
  rw [List.map_append, List.map_cons, concatAll_append]
  simp only [concatAll]
  rw [String.append_assoc]

/-- C9: each file of the final order contributes one block to the combined
output, in order; a readable file's block is the opening delimiter with the
normalized project-root-relative path, the file content with a line break
appended when missing (so the body always ends in a newline), and the closing
delimiter plus a blank line; an unreadable file yields an inline error block
after the already-written start line instead of aborting; and the relative
path's separators are normalized to forward slashes whichever OS separator
was in use. -/
theorem claim_C9_writer_blocks :
    ∀ (sep : Char) (root : Fpath) (readF : Fpath → ReadRes)
      (files : List Fpath) (u : Fpath), u ∈ files →
    (∃ pre post, bundleOutput sep root readF files =
        pre ++ fileBlock sep root readF u ++ post) ∧
    (∀ c, readF u = ReadRes.ok c →
      fileBlock sep root readF u =
        "```\n# Start of " ++ relStr sep u root ++ "\n" ++
          (c ++ (if pyEndsNl c then "" else "\n") ++
           "# End of " ++ relStr sep u root ++ "\n```\n\n") ∧
      pyEndsNl (c ++ (if pyEndsNl c then "" else "\n")) = true) ∧
    (readF u = ReadRes.notFound →
      fileBlock sep root readF u =
        "```\n# Start of " ++ relStr sep u root ++ "\n" ++
          ("```\n# Error: File not found: " ++ relStr sep u root ++ "\n```\n\n")) ∧
    ((sep = '/' ∨ sep = '\\') →
      (∀ comp ∈ u.drop root.length, ∀ ch ∈ comp.data, ¬ ch = '\\') →
      relStr sep u root = joinChar '/' (u.drop root.length)) := by
  intro sep root readF files u hu
  refine ⟨bundleOutput_decompose sep root readF hu, ?_, ?_, ?_⟩
  · intro c hc
    constructor
    · unfold fileBlock
      rw [hc]
    · exact pyEndsNl_pad c
  · intro hnf
    unfold fileBlock
    rw [hnf]
  · intro hsep hcomp
    unfold relStr
    exact normalizeSep_joinChar sep hsep _ hcomp

/-- Contents oracle for the C9 witness. -/
def readF9 : Fpath → ReadRes := fun _ => ReadRes.ok "hello"

theorem claim_C9_witness :
    pyEndsNl ("hello" ++ (if pyEndsNl "hello" then "" else "\n")) = true :=
  ((claim_C9_writer_blocks '/' ["r"] readF9 [["r", "a.py"]] ["r", "a.py"]
    (List.mem_singleton.mpr rfl)).2.1 "hello" rfl).2

/-! ## C10: the CLI and core variants classify specifiers differently -/

/-- A runtime where module name `json` is found by the interpreter's search
(as the standard library's `json/__init__.py` outside the project), the
project root `/r` nevertheless holds a local `json.py`, and `json` is not a
*builtin* (compiled-in) module name. -/
def w10 : World :=
  { isFile := fun p => decide (p = ["r", "json.py"] ∨ p = ["r", "m.py"]),
    isDir := fun _ => false,
    findSpec := fun n =>
      if n = "json" then
        SpecRes.origin ["usr", "lib", "python3", "json", "__init__.py"]
      else SpecRes.notFound }

/-- `sys.builtin_module_names` holds only compiled-in modules; `json` is a
pure-Python stdlib package and is not among them. -/
def builtins10 : List String := ["sys", "builtins", "marshal", "time"]

/-- C10: the two independently written variants are not extensionally equal:
for the specifier `import json` in `/r/m.py` with a local `/r/json.py`
shadowing the stdlib package, the standalone CLI variant (whose stdlib check
only consults `sys.builtin_module_names`) classifies it as a local file while
the embeddable core variant (which consults `find_spec` and sees an origin
outside the project root) classifies it as not local. -/
theorem claim_C10_variants_diverge :
    cliClassify w10 builtins10 ["r"] ["r", "m.py"] (some "json") 0 =
      some ["r", "json.py"] ∧
    coreClassify w10 ["r"] ["r", "m.py"] (some "json") 0 = none :=
  ⟨rfl, rfl⟩

/-! ## C2: the pipeline output depends on set-iteration order -/

/-- The whole data pipeline of one run, from the worklist build to the bytes
of the combined file (the phases of `run_bundling_process` after root
location). -/
def pipelineOutput (imports : Fpath → List Fpath) (inRoot : Fpath → Bool)
    (entry root : Fpath) (sep : Char) (readF : Fpath → ReadRes)
    (fuel : Nat) : String :=
  bundleOutput sep root readF
    (finalOrder (buildGraph imports inRoot entry fuel).graph entry)

/-- The dependency sets observed by run 1: `main.py` imports `{b.py, c.py}`,
iterated as `[b, c]`. -/
def importsRun1 : Fpath → List Fpath := fun x =>
  if x = ["main.py"] then [["b.py"], ["c.py"]] else []

/-- The same dependency sets as observed by run 2: the `Set[Path]` of
`main.py` iterated as `[c, b]` (Python's set iteration order depends on the
per-process string hash seed). -/
def importsRun2 : Fpath → List Fpath := fun x =>
  if x = ["main.py"] then [["c.py"], ["b.py"]] else []

/-- Contents oracle for the C2 runs: the project is unchanged between runs. -/
def readAllOk : Fpath → ReadRes := fun _ => ReadRes.ok "pass\n"

/-- C2: the pipeline is NOT a function of the project alone — two runs over
the identical unchanged project whose dependency *sets* are equal (pointwise
permutations) but are iterated in different orders produce different final
orders and different output bytes.  Since `build_dependency_graph` and
`topological_sort` iterate Python `Set[Path]` values, whose order varies with
the per-process hash seed, byte-identical output across runs is not
guaranteed by the code. -/
theorem claim_C2_output_depends_on_iteration_order :
    (∀ x, (importsRun1 x).Perm (importsRun2 x)) ∧
    finalOrder (buildGraph importsRun1 inRootAll ["main.py"] 10).graph
      ["main.py"] = [["b.py"], ["c.py"], ["main.py"]] ∧
    finalOrder (buildGraph importsRun2 inRootAll ["main.py"] 10).graph
      ["main.py"] = [["c.py"], ["b.py"], ["main.py"]] ∧
    pipelineOutput importsRun1 inRootAll ["main.py"] [] '/' readAllOk 10 ≠
      pipelineOutput importsRun2 inRootAll ["main.py"] [] '/' readAllOk 10 := by
  refine ⟨?_, by decide, by decide, by decide⟩
  intro x
  unfold importsRun1 importsRun2
  by_cases hx : x = ["main.py"]
  · rw [if_pos hx, if_pos hx]
    exact List.Perm.swap _ _ _
  · rw [if_neg hx, if_neg hx]
